import Mathlib

/-!
Shallow embedding of the authoritative `GameServer` simulation of
src/App.tsx (the server document): world state, the tick pipeline
(movement, food eating, replenishment, the blob-versus-blob pair scan),
the leaderboard aggregation of `pushState`, and the player actions
`connectPlayer`, `disconnectPlayer`, `updatePlayerInput`, `playerSplit`.

Numbers are modelled as exact rationals.  The only irrational ingredients
of the source are `massToRadius` (a square root), the Euclidean distance
(a square root, which we eliminate by squaring both sides of every
comparison, an exact transformation since distances are nonnegative), and
the trigonometric steering/ejection directions.  `massToRadius` is passed
as an explicit function parameter `mtr`, directions as a parameter `dir`,
and the random spawn supply as parameters, so every definition below is a
direct executable translation of the corresponding source function.
-/

namespace Blobby

/-- 2D vector of world coordinates (`Vector` in src/App.tsx). -/
structure Vec where
  x : ℚ
  y : ℚ
deriving DecidableEq, Repr

/-- A blob piece (`Blob` of the server document in src/App.tsx). -/
structure Blob where
  id : String
  playerId : String
  pos : Vec
  mass : ℚ
  radius : ℚ
  color : String
  velocity : Vec
  name : String
  canRecombineTime : ℚ
deriving DecidableEq, Repr

/-- A food pellet (`Food` of the server document in src/App.tsx). -/
structure Food where
  pos : Vec
  mass : ℚ
  radius : ℚ
  color : String
deriving DecidableEq, Repr

def WORLD_WIDTH : ℚ := 3000

def WORLD_HEIGHT : ℚ := 3000

def INITIAL_PLAYER_MASS : ℚ := 20

def FOOD_COUNT : Nat := 200

def MIN_MASS_TO_SPLIT : ℚ := 30

def RECOMBINE_DELAY_MS : ℚ := 25000

def SPLIT_EJECT_SPEED : ℚ := 20

/-- `getMaxBlobsForMass` from src/App.tsx. -/
def getMaxBlobsForMass (mass : ℚ) : Nat :=
  if mass ≥ 240 then 16
  else if mass ≥ 120 then 8
  else if mass ≥ 60 then 4
  else if mass ≥ MIN_MASS_TO_SPLIT then 2
  else 1

/-- Squared Euclidean distance between two points. -/
def dist2 (p q : Vec) : ℚ :=
  (p.x - q.x) * (p.x - q.x) + (p.y - q.y) * (p.y - q.y)

/-- `distance p q < r` where `distance` is the Euclidean `Math.hypot` of the
source, encoded exactly by squaring: the distance is nonnegative, so
`distance < r ↔ 0 < r ∧ distance² < r²`.  This keeps the embedding in ℚ. -/
def distLt (p q : Vec) (r : ℚ) : Prop :=
  0 < r ∧ dist2 p q < r * r

instance (p q : Vec) (r : ℚ) : Decidable (distLt p q r) := by
  unfold distLt
  infer_instance

/-- The authoritative world state: the blob `Map` (JS maps are
insertion-ordered with unique keys; modelled as a list in insertion order)
and the food array. -/
structure World where
  blobs : List Blob
  food : List Food
deriving DecidableEq, Repr

/-- JS `Map.set` on the insertion-ordered blob map: if the id is already a
key the entry is replaced in place, otherwise it is appended. -/
def mapSet (blobs : List Blob) (b : Blob) : List Blob :=
  if blobs.any (fun x => x.id = b.id) then
    blobs.map (fun x => if x.id = b.id then b else x)
  else blobs ++ [b]

/-- One blob's movement sub-step of `tick`: integrate position from
velocity, clamp each axis into the world, then damp velocity by 0.98. -/
def moveBlob (b : Blob) : Blob :=
  { b with
    pos := ⟨max 0 (min WORLD_WIDTH (b.pos.x + b.velocity.x)),
            max 0 (min WORLD_HEIGHT (b.pos.y + b.velocity.y))⟩,
    velocity := ⟨b.velocity.x * (98 / 100), b.velocity.y * (98 / 100)⟩ }

/-- One step of the blob-versus-food `filter` callback of `tick`: if the
pellet's center is within the blob's (current, already-grown-this-pass)
radius, the blob absorbs its mass and recomputes its radius and the pellet
is dropped; otherwise the pellet is kept. -/
def eatStep (mtr : ℚ → ℚ) (acc : Blob × List Food) (f : Food) : Blob × List Food :=
  if distLt acc.1.pos f.pos acc.1.radius then
    ({ acc.1 with mass := acc.1.mass + f.mass, radius := mtr (acc.1.mass + f.mass) }, acc.2)
  else (acc.1, acc.2 ++ [f])

/-- One blob's full pass over the food list (`this.food.filter(...)`). -/
def blobEat (mtr : ℚ → ℚ) (b : Blob) (food : List Food) : Blob × List Food :=
  food.foldl (eatStep mtr) (b, [])

/-- The blob-versus-food phase of `tick`: each blob in turn filters the
(remaining) food list, growing as it eats. -/
def eatPhase (mtr : ℚ → ℚ) : List Blob → List Food → List Blob × List Food
  | [], food => ([], food)
  | b :: bs, food =>
    let bf := blobEat mtr b food
    let rest := eatPhase mtr bs bf.2
    (bf.1 :: rest.1, rest.2)

/-- The `while (this.food.length < FOOD_COUNT) push(createFood())` top-up;
`supply` stands for the stream of randomly generated pellets. -/
def replenish (supply : Nat → Food) (food : List Food) : List Food :=
  food ++ (List.range (FOOD_COUNT - food.length)).map supply

/-- The mutable state of the blob-versus-blob pair scan: the blob array
(mutated in place by the source) and the `consumedBlobIds` set, in
insertion order. -/
structure ScanState where
  blobs : List Blob
  consumed : List String
deriving DecidableEq, Repr

/-- Resolution of one index pair `(i, j)` of the scan, exactly as in the
nested loops of `tick`: skip if either blob is already consumed; same-owner
pairs (with a non-empty owner) may recombine when both recombine times are
strictly past and the centers overlap either radius; all other pairs go to
the engulfment rule with its 1.1 mass margin and radius-depth test.
`11 / 10` and `1 / 2` are the source's literals `1.1` and `0.5`. -/
def pairStep (mtr : ℚ → ℚ) (now : ℚ) (s : ScanState) (ij : Nat × Nat) : ScanState :=
  match s.blobs[ij.1]?, s.blobs[ij.2]? with
  | some b1, some b2 =>
    if b1.id ∈ s.consumed ∨ b2.id ∈ s.consumed then s
    else if b1.playerId = b2.playerId ∧ b1.playerId ≠ "" then
      if now > b1.canRecombineTime ∧ now > b2.canRecombineTime ∧
          (distLt b1.pos b2.pos b1.radius ∨ distLt b1.pos b2.pos b2.radius) then
        { blobs := s.blobs.set ij.1
            { b1 with mass := b1.mass + b2.mass, radius := mtr (b1.mass + b2.mass) },
          consumed := s.consumed ++ [b2.id] }
      else s
    else
      if b1.mass > b2.mass * (11 / 10) ∧
          distLt b1.pos b2.pos (b1.radius - b2.radius * (1 / 2)) then
        { blobs := s.blobs.set ij.1
            { b1 with mass := b1.mass + b2.mass, radius := mtr (b1.mass + b2.mass) },
          consumed := s.consumed ++ [b2.id] }
      else if b2.mass > b1.mass * (11 / 10) ∧
          distLt b1.pos b2.pos (b2.radius - b1.radius * (1 / 2)) then
        { blobs := s.blobs.set ij.2
            { b2 with mass := b2.mass + b1.mass, radius := mtr (b2.mass + b1.mass) },
          consumed := s.consumed ++ [b1.id] }
      else s
  | _, _ => s

/-- Index pairs `(i, j)` with `i < j < n`, in the order the nested
`for i / for j = i + 1` loops of `tick` visit them. -/
def pairIndices (n : Nat) : List (Nat × Nat) :=
  (List.range n).flatMap (fun i => ((List.range n).drop (i + 1)).map (fun j => (i, j)))

/-- The full blob-versus-blob pair scan of one tick. -/
def runScan (mtr : ℚ → ℚ) (now : ℚ) (blobs : List Blob) : ScanState :=
  (pairIndices blobs.length).foldl (pairStep mtr now) ⟨blobs, []⟩

/-- The blob map after the scan's `consumedBlobIds.forEach(id => delete)`. -/
def scanSurvivors (mtr : ℚ → ℚ) (now : ℚ) (blobs : List Blob) : List Blob :=
  ((runScan mtr now blobs).blobs).filter (fun b => b.id ∉ (runScan mtr now blobs).consumed)

/-- One full server tick: movement, blob-versus-food, food top-up, the
blob-versus-blob scan, deletion of consumed blobs.  `now` is the tick's
`Date.now()`, `supply` the stream of replacement pellets. -/
def tick (mtr : ℚ → ℚ) (supply : Nat → Food) (now : ℚ) (w : World) : World :=
  let moved := w.blobs.map moveBlob
  let fed := eatPhase mtr moved w.food
  { blobs := scanSurvivors mtr now fed.1, food := replenish supply fed.2 }

/-- A published leaderboard row (`LeaderboardEntry` of the server document);
`mass` is the `Math.floor`ed per-player total. -/
structure LeaderboardEntry where
  playerId : String
  name : String
  mass : ℤ
deriving DecidableEq, Repr

/-- The `playerMasses` accumulation of `pushState`: a JS `Map` from player
id to summed mass, in first-occurrence order (an existing key keeps its
position when updated). -/
def sumMasses (blobs : List Blob) : List (String × ℚ) :=
  blobs.foldl
    (fun acc b =>
      if acc.any (fun p => p.1 = b.playerId) then
        acc.map (fun p => if p.1 = b.playerId then (p.1, p.2 + b.mass) else p)
      else acc ++ [(b.playerId, b.mass)])
    []

/-- Stable descending insertion for the leaderboard sort: an element moves
past exactly the entries of strictly larger mass, so equal-mass entries
keep their original relative order.  JS `Array.prototype.sort` is
guaranteed stable, and with the comparator `(a, b) => b.mass - a.mass` its
(unique) result is exactly this stable descending order. -/
def insertEntry (e : LeaderboardEntry) : List LeaderboardEntry → List LeaderboardEntry
  | [] => [e]
  | x :: xs => if x.mass > e.mass then x :: insertEntry e xs else e :: x :: xs

/-- Stable sort of leaderboard entries by descending `mass`. -/
def sortDesc (l : List LeaderboardEntry) : List LeaderboardEntry :=
  l.foldr insertEntry []

/-- The per-player entries of `pushState` before sorting: summed masses in
first-occurrence order, floored, with the looked-up display name. -/
def entriesOf (nameOf : String → String) (blobs : List Blob) : List LeaderboardEntry :=
  (sumMasses blobs).map (fun p => ⟨p.1, nameOf p.1, ⌊p.2⌋⟩)

/-- The leaderboard published by `pushState`: entries sorted (stably) by
descending floored mass, truncated to the top 10. -/
def leaderboardOf (nameOf : String → String) (blobs : List Blob) : List LeaderboardEntry :=
  (sortDesc (entriesOf nameOf blobs)).take 10

/-- The raw (unfloored) total mass a player owns, for stating properties
about the leaderboard order. -/
def playerMass (pid : String) (blobs : List Blob) : ℚ :=
  ((blobs.filter (fun b => b.playerId = pid)).map (fun b => b.mass)).sum

/-- `createBlob` of src/App.tsx: the randomly generated id, position and
color are passed in; mass is the starting constant, radius derived from it. -/
def createBlob (mtr : ℚ → ℚ) (pid nm bid : String) (p : Vec) (c : String) (now : ℚ) : Blob :=
  { id := bid, playerId := pid, pos := p, mass := INITIAL_PLAYER_MASS,
    radius := mtr INITIAL_PLAYER_MASS, color := c, velocity := ⟨0, 0⟩,
    name := nm, canRecombineTime := now }

/-- `connectPlayer`: create the joining player's first blob and `Map.set`
it into the world. -/
def connectPlayer (mtr : ℚ → ℚ) (pid nm bid : String) (p : Vec) (c : String) (now : ℚ)
    (w : World) : World :=
  { w with blobs := mapSet w.blobs (createBlob mtr pid nm bid p c now) }

/-- `disconnectPlayer`: delete every blob owned by the player. -/
def disconnectPlayer (pid : String) (w : World) : World :=
  { w with blobs := w.blobs.filter (fun b => ¬ b.playerId = pid) }

/-- `updatePlayerInput`: if the player owns no blobs, return immediately;
otherwise each of the player's blobs gets a new steering velocity.  The
steering computation itself (sort by mass, orbit geometry, `atan2`, `cos`,
`sin`, speed cap and the 0.15 lerp) is transcendental and is abstracted as
the function `steer` from the player's blob list and the blob to its new
velocity; it touches nothing but the velocities of that player's blobs. -/
def updatePlayerInput (steer : List Blob → Blob → Vec) (pid : String) (w : World) : World :=
  let playerBlobs := w.blobs.filter (fun b => b.playerId = pid)
  if playerBlobs.length = 0 then w
  else
    { w with blobs := w.blobs.map (fun b =>
        if b.playerId = pid then { b with velocity := steer playerBlobs b } else b) }

/-- The body of the `playerBlobs.forEach` of `playerSplit`: per-blob
eligibility (mass at least 30 and the running existing-plus-new count
below the cap), halving of mass with radius recomputation, the recombine
timestamps on both pieces, the 2.5-radius offset of the new piece and its
fixed ejection impulse of 20.  `dir b` abstracts the transcendental unit
vector `(cos θ, sin θ)` toward the supplied mouse point computed for the
(already halved) blob `b`; `newId k` is the random id of the `k`-th new
piece.  Blobs not owned by `pid`, or ineligible, pass through unchanged,
which makes the fold over the whole blob list coincide with the source's
`forEach` over the filtered `playerBlobs` plus in-place map mutation. -/
def splitStep (mtr : ℚ → ℚ) (dir : Blob → Vec) (newId : Nat → String)
    (recombineTime : ℚ) (pid : String) (pbLen maxBlobs : Nat)
    (acc : List Blob × List Blob) (b : Blob) : List Blob × List Blob :=
  if b.playerId = pid ∧ b.mass ≥ MIN_MASS_TO_SPLIT ∧ pbLen + acc.2.length < maxBlobs then
    let halved : Blob :=
      { b with
          mass := b.mass / 2
          radius := mtr (b.mass / 2)
          canRecombineTime := recombineTime }
    let d := dir halved
    let nb : Blob :=
      { halved with
          id := newId acc.2.length
          pos := ⟨halved.pos.x + d.x * (halved.radius * (5 / 2)),
                  halved.pos.y + d.y * (halved.radius * (5 / 2))⟩
          velocity := ⟨halved.velocity.x + d.x * SPLIT_EJECT_SPEED,
                       halved.velocity.y + d.y * SPLIT_EJECT_SPEED⟩ }
    (acc.1 ++ [halved], acc.2 ++ [nb])
  else (acc.1 ++ [b], acc.2)

/-- `playerSplit` of src/App.tsx: a no-op when the player's blob count
already meets `getMaxBlobsForMass` of the player's total mass; otherwise
each eligible blob is halved and a new ejected sibling collected, and the
new blobs are `Map.set` into the world. -/
def playerSplit (mtr : ℚ → ℚ) (dir : Blob → Vec) (newId : Nat → String) (now : ℚ)
    (pid : String) (w : World) : World :=
  let playerBlobs := w.blobs.filter (fun b => b.playerId = pid)
  let totalMass := (playerBlobs.map (fun b => b.mass)).sum
  let maxBlobs := getMaxBlobsForMass totalMass
  if playerBlobs.length ≥ maxBlobs then w
  else
    let res := w.blobs.foldl
      (splitStep mtr dir newId (now + RECOMBINE_DELAY_MS) pid playerBlobs.length maxBlobs)
      ([], [])
    { w with blobs := res.2.foldl mapSet res.1 }

/-- The radius/mass consistency invariant of the spec: every stored radius
is the radius function of the stored mass. -/
def radiiConsistent (mtr : ℚ → ℚ) (blobs : List Blob) : Prop :=
  ∀ b ∈ blobs, b.radius = mtr b.mass

/-- Whether the pair `(b1, b2)`, read exactly as given (i.e. on a pre-scan
snapshot), passes a resolution threshold test of the scan at time `now`:
the recombination time-and-overlap test for same-owner pairs, or either
direction of the engulfment margin-and-distance test otherwise. -/
def resolvable (now : ℚ) (b1 b2 : Blob) : Prop :=
  if b1.playerId = b2.playerId ∧ b1.playerId ≠ "" then
    now > b1.canRecombineTime ∧ now > b2.canRecombineTime ∧
      (distLt b1.pos b2.pos b1.radius ∨ distLt b1.pos b2.pos b2.radius)
  else
    (b1.mass > b2.mass * (11 / 10) ∧ distLt b1.pos b2.pos (b1.radius - b2.radius * (1 / 2))) ∨
    (b2.mass > b1.mass * (11 / 10) ∧ distLt b1.pos b2.pos (b2.radius - b1.radius * (1 / 2)))

instance (now : ℚ) (b1 b2 : Blob) : Decidable (resolvable now b1 b2) := by
  unfold resolvable
  infer_instance


/-- A simple concrete radius function for instantiating witnesses; the
claim theorems are universally quantified over the radius function. -/
def mtrId : ℚ → ℚ := fun m => m

/-- Builder for the concrete blobs of witnesses and counterexamples. -/
def mkBlob (bid pidn : String) (px m r t : ℚ) : Blob :=
  { id := bid, playerId := pidn, pos := ⟨px, 0⟩, mass := m, radius := r,
    color := "c", velocity := ⟨0, 0⟩, name := "n", canRecombineTime := t }

/-- Concrete pellet for witnesses. -/
def foodW : Food := ⟨⟨0, 0⟩, 1, 1, "f"⟩

/-- Concrete pellet supply for witnesses. -/
def supplyW : Nat → Food := fun _ => foodW

/-- Concrete split direction for witnesses. -/
def dirW : Blob → Vec := fun _ => ⟨1, 0⟩

/-- Concrete fresh-id source for witnesses. -/
def idW : Nat → String := fun _ => "nid"

/-- Concrete steering function for witnesses. -/
def steerW : List Blob → Blob → Vec := fun _ _ => ⟨0, 0⟩

/-- Identity display-name lookup for counterexamples. -/
def nmW : String → String := fun s => s

/-- Counterexample blob: player A owns raw mass 121/4 = 30.25, inserted
first. -/
def lbA : Blob := mkBlob "la" "A" 0 (121 / 4) 1 0

/-- Counterexample blob: player B owns raw mass 61/2 = 30.5, inserted
second. -/
def lbB : Blob := mkBlob "lb" "B" 5 (61 / 2) 1 0

/-- Rational stand-ins for the square-root radius function at the three
masses of the cascade counterexample (massToRadius 20 ≈ 25.23 → 126/5,
massToRadius 100 ≈ 56.42 → 282/5, massToRadius 200 ≈ 79.79 → 399/5); every
comparison in the counterexample has the same outcome with the exact
irrational radii, so the same trace happens in the source. -/
def rApprox : ℚ → ℚ := fun m =>
  if m = 20 then 126 / 5 else if m = 100 then 282 / 5 else if m = 200 then 399 / 5 else 0

/-- Cascade counterexample blob 1: owner p, mass 100, at x = 0. -/
def cxB1 : Blob := mkBlob "b1" "p" 0 100 (282 / 5) 0

/-- Cascade counterexample blob 2: owner p, mass 100, at x = 10. -/
def cxB2 : Blob := mkBlob "b2" "p" 10 100 (282 / 5) 0

/-- Cascade counterexample blob 3: owner p, mass 20, at x = 70. -/
def cxB3 : Blob := mkBlob "b3" "p" 70 20 (126 / 5) 0

/-- `cxB1` after absorbing `cxB2` at the scan's first pair. -/
def cxB1m : Blob :=
  { cxB1 with mass := cxB1.mass + cxB2.mass, radius := rApprox (cxB1.mass + cxB2.mass) }

/-- `cxB1m` after absorbing `cxB3` at the scan's second pair. -/
def cxB1mm : Blob :=
  { cxB1m with mass := cxB1m.mass + cxB3.mass, radius := rApprox (cxB1m.mass + cxB3.mass) }

/-! ## Helper lemmas -/

/-- Membership in a dropped range. -/
theorem mem_drop_range {n m j : Nat} : j ∈ (List.range n).drop m ↔ m ≤ j ∧ j < n := by
  simp only [List.mem_drop_iff_getElem, List.length_range, List.getElem_range]
  constructor
  · rintro ⟨i, hi, rfl⟩
    omega
  · rintro ⟨h1, h2⟩
    exact ⟨j - m, by omega, by omega⟩

/-- `pairIndices n` holds exactly the pairs `(i, j)` with `i < j < n`. -/
theorem mem_pairIndices {n i j : Nat} : (i, j) ∈ pairIndices n ↔ i < j ∧ j < n := by
  simp only [pairIndices, List.mem_flatMap, List.mem_map, List.mem_range]
  constructor
  · rintro ⟨a, ha, b, hb, heq⟩
    injection heq with e1 e2
    subst e1
    subst e2
    rw [mem_drop_range] at hb
    omega
  · rintro ⟨h1, h2⟩
    exact ⟨i, by omega, ⟨j, mem_drop_range.mpr ⟨by omega, h2⟩, rfl⟩⟩

/-- The scan's pair list never repeats an index pair. -/
theorem pairIndices_nodup (n : Nat) : (pairIndices n).Nodup := by
  unfold pairIndices
  rw [List.nodup_flatMap]
  constructor
  · intro i _
    exact (((List.nodup_range n).sublist (List.drop_sublist _ _)).map
      (fun a b h => by injection h))
  · have : (List.range n).Nodup := List.nodup_range n
    refine List.Pairwise.imp ?_ this
    intro a b hab x hxa hxb
    simp only [List.mem_map] at hxa hxb
    obtain ⟨ja, _, rfl⟩ := hxa
    obtain ⟨jb, _, heq⟩ := hxb
    injection heq with e1 _
    exact hab e1.symm

/-- Reduction of `pairStep` when the first index is out of range. -/
theorem pairStep_none_fst {mtr : ℚ → ℚ} {now : ℚ} {s : ScanState} {ij : Nat × Nat}
    (h : s.blobs[ij.1]? = (none : Option Blob)) :
    pairStep mtr now s ij = s := by
  unfold pairStep
  rw [h]

/-- Reduction of `pairStep` when the second index is out of range. -/
theorem pairStep_none_snd {mtr : ℚ → ℚ} {now : ℚ} {s : ScanState} {ij : Nat × Nat}
    (h : s.blobs[ij.2]? = (none : Option Blob)) :
    pairStep mtr now s ij = s := by
  unfold pairStep
  rw [h]
  cases s.blobs[ij.1]? <;> rfl

/-- Reduction of `pairStep` when both indices are in range. -/
theorem pairStep_some {mtr : ℚ → ℚ} {now : ℚ} {s : ScanState} {i j : Nat} {b1 b2 : Blob}
    (h1 : s.blobs[i]? = some b1) (h2 : s.blobs[j]? = some b2) :
    pairStep mtr now s (i, j) =
      if b1.id ∈ s.consumed ∨ b2.id ∈ s.consumed then s
      else if b1.playerId = b2.playerId ∧ b1.playerId ≠ "" then
        if now > b1.canRecombineTime ∧ now > b2.canRecombineTime ∧
            (distLt b1.pos b2.pos b1.radius ∨ distLt b1.pos b2.pos b2.radius) then
          { blobs := s.blobs.set i
              { b1 with mass := b1.mass + b2.mass, radius := mtr (b1.mass + b2.mass) },
            consumed := s.consumed ++ [b2.id] }
        else s
      else
        if b1.mass > b2.mass * (11 / 10) ∧
            distLt b1.pos b2.pos (b1.radius - b2.radius * (1 / 2)) then
          { blobs := s.blobs.set i
              { b1 with mass := b1.mass + b2.mass, radius := mtr (b1.mass + b2.mass) },
            consumed := s.consumed ++ [b2.id] }
        else if b2.mass > b1.mass * (11 / 10) ∧
            distLt b1.pos b2.pos (b2.radius - b1.radius * (1 / 2)) then
          { blobs := s.blobs.set j
              { b2 with mass := b2.mass + b1.mass, radius := mtr (b2.mass + b1.mass) },
            consumed := s.consumed ++ [b1.id] }
        else s := by
  unfold pairStep
  rw [show ((i, j).1 : Nat) = i from rfl, show ((i, j).2 : Nat) = j from rfl, h1, h2]

/-- Each single pair resolution either changes nothing, or updates exactly
one blob's mass and radius (the winner, absorbing some other live blob's
mass) in place and appends exactly that other blob's id to the consumed
set. -/
theorem pairStep_dichotomy (mtr : ℚ → ℚ) (now : ℚ) (s : ScanState) (ij : Nat × Nat) :
    pairStep mtr now s ij = s ∨
    ∃ k b l, s.blobs[k]? = some b ∧ l ∈ s.blobs ∧
      (pairStep mtr now s ij).blobs
        = s.blobs.set k { b with mass := b.mass + l.mass, radius := mtr (b.mass + l.mass) } ∧
      (pairStep mtr now s ij).consumed = s.consumed ++ [l.id] := by
  obtain ⟨i, j⟩ := ij
  cases h1 : s.blobs[i]? with
  | none => exact Or.inl (pairStep_none_fst h1)
  | some b1 =>
    cases h2 : s.blobs[j]? with
    | none => exact Or.inl (pairStep_none_snd h2)
    | some b2 =>
      rw [pairStep_some h1 h2]
      split_ifs with hc hsame htime he1 he2
      · exact Or.inl rfl
      · exact Or.inr ⟨i, b1, b2, h1, List.getElem?_mem h2, rfl, rfl⟩
      · exact Or.inl rfl
      · exact Or.inr ⟨i, b1, b2, h1, List.getElem?_mem h2, rfl, rfl⟩
      · exact Or.inr ⟨j, b2, b1, h2, List.getElem?_mem h1, rfl, rfl⟩
      · exact Or.inl rfl

/-- A pair resolution never removes ids from the consumed set. -/
theorem pairStep_consumed_mono (mtr : ℚ → ℚ) (now : ℚ) (s : ScanState) (ij : Nat × Nat) :
    s.consumed ⊆ (pairStep mtr now s ij).consumed := by
  rcases pairStep_dichotomy mtr now s ij with h | ⟨k, b, l, _, _, _, hcons⟩
  · rw [h]
    exact List.Subset.refl _
  · rw [hcons]
    exact List.subset_append_left _ _

/-- Ids already consumed stay consumed through any remaining pair list. -/
theorem foldl_consumed_mono (mtr : ℚ → ℚ) (now : ℚ) (l : List (Nat × Nat)) (s : ScanState) :
    s.consumed ⊆ (l.foldl (pairStep mtr now) s).consumed := by
  induction l generalizing s with
  | nil => exact fun x h => h
  | cons ij rest ih =>
    exact fun x h => ih (pairStep mtr now s ij) (pairStep_consumed_mono mtr now s ij h)

/-- Through any pair list, each slot of the blob array keeps its blob up to
mass and radius: id, owner, position, velocity, recombine time, name and
color are never written by the scan. -/
theorem foldl_pairStep_frame (mtr : ℚ → ℚ) (now : ℚ) (l : List (Nat × Nat))
    (blobs0 : List Blob) (s : ScanState)
    (h : ∀ (k : Nat) (b : Blob), blobs0[k]? = some b →
      ∃ m r, s.blobs[k]? = some { b with mass := m, radius := r }) :
    ∀ (k : Nat) (b : Blob), blobs0[k]? = some b →
      ∃ m r, (l.foldl (pairStep mtr now) s).blobs[k]? = some { b with mass := m, radius := r } := by
  induction l generalizing s with
  | nil => exact h
  | cons ij rest ih =>
    refine ih _ ?_
    intro k b hkb
    obtain ⟨m, r, hs⟩ := h k b hkb
    rcases pairStep_dichotomy mtr now s ij with hstep | ⟨k', b', l', hk', _, hblobs, _⟩
    · rw [hstep]
      exact ⟨m, r, hs⟩
    · by_cases hkk : k = k'
      · subst hkk
        have hlen : k < s.blobs.length := by
          rcases List.getElem?_eq_some.mp hk' with ⟨hl, _⟩
          exact hl
        rw [hs] at hk'
        injection hk' with e
        refine ⟨b'.mass + l'.mass, mtr (b'.mass + l'.mass), ?_⟩
        rw [hblobs, List.getElem?_set_self hlen, ← e]
      · refine ⟨m, r, ?_⟩
        rw [hblobs, List.getElem?_set_ne (fun hh => hkk hh.symm)]
        exact hs

/-- The full scan preserves every blob slot up to mass and radius. -/
theorem runScan_frame (mtr : ℚ → ℚ) (now : ℚ) (blobs : List Blob) (k : Nat) (b : Blob)
    (h : blobs[k]? = some b) :
    ∃ m r, (runScan mtr now blobs).blobs[k]? = some { b with mass := m, radius := r } :=
  foldl_pairStep_frame mtr now (pairIndices blobs.length) blobs ⟨blobs, []⟩
    (fun _ b' hb' => ⟨b'.mass, b'.radius, hb'⟩) k b h

/-- One blob's pass over the food list never lengthens the kept-food list. -/
theorem foldl_eatStep_len (mtr : ℚ → ℚ) (food : List Food) (acc : Blob × List Food) :
    (food.foldl (eatStep mtr) acc).2.length ≤ acc.2.length + food.length := by
  induction food generalizing acc with
  | nil => simp
  | cons f fs ih =>
    refine le_trans (ih (eatStep mtr acc f)) ?_
    unfold eatStep
    split_ifs <;> simp <;> omega

/-- The whole eating phase never lengthens the food list. -/
theorem eatPhase_food_len (mtr : ℚ → ℚ) (bs : List Blob) (food : List Food) :
    (eatPhase mtr bs food).2.length ≤ food.length := by
  induction bs generalizing food with
  | nil => simp [eatPhase]
  | cons b bs ih =>
    calc (eatPhase mtr (b :: bs) food).2.length
        = (eatPhase mtr bs (blobEat mtr b food).2).2.length := rfl
      _ ≤ (blobEat mtr b food).2.length := ih _
      _ ≤ food.length := by simpa using foldl_eatStep_len mtr food (b, [])

/-- The top-up loop brings any not-overfull food list to exactly the
target population. -/
theorem replenish_len (supply : Nat → Food) (food : List Food)
    (h : food.length ≤ FOOD_COUNT) :
    (replenish supply food).length = FOOD_COUNT := by
  simp only [replenish, List.length_append, List.length_map, List.length_range]
  omega

/-- C4: starting a tick with the configured 200 pellets, the tick ends with
exactly 200 pellets again, however many were eaten during the tick. -/
theorem food_count_restored (mtr : ℚ → ℚ) (supply : Nat → Food) (now : ℚ) (w : World)
    (h : w.food.length = FOOD_COUNT) :
    (tick mtr supply now w).food.length = FOOD_COUNT := by
  simp only [tick]
  exact replenish_len supply _ (le_trans (eatPhase_food_len mtr _ _) (le_of_eq h))

/-- Witness for `food_count_restored` at a concrete 200-pellet world. -/
theorem food_count_restored_witness :
    (tick mtrId supplyW 0 ⟨[], List.replicate 200 foodW⟩).food.length = FOOD_COUNT :=
  food_count_restored mtrId supplyW 0 ⟨[], List.replicate 200 foodW⟩
    (by rw [List.length_replicate]; rfl)

/-- C3: a same-owner pair (non-empty owner) is never merged by its scan
step when the tick time is not strictly past both recombine timestamps,
overlap notwithstanding: the step leaves the scan state unchanged. -/
theorem same_owner_no_early_merge (mtr : ℚ → ℚ) (now : ℚ) (s : ScanState) (i j : Nat)
    (b1 b2 : Blob) (h1 : s.blobs[i]? = some b1) (h2 : s.blobs[j]? = some b2)
    (hsame : b1.playerId = b2.playerId) (hne : b1.playerId ≠ "")
    (htime : now ≤ b1.canRecombineTime ∨ now ≤ b2.canRecombineTime) :
    pairStep mtr now s (i, j) = s := by
  rw [pairStep_some h1 h2]
  split_ifs with hc hsame2 htime2 he1 he2
  · rfl
  · rcases htime with h | h
    · exact absurd htime2.1 (not_lt.mpr h)
    · exact absurd htime2.2.1 (not_lt.mpr h)
  · rfl
  · exact absurd ⟨hsame, hne⟩ hsame2
  · exact absurd ⟨hsame, hne⟩ hsame2
  · rfl

/-- Witness for `same_owner_no_early_merge`: overlapping same-owner blobs,
tick time 50, recombine timestamps 100. -/
theorem same_owner_no_early_merge_witness :
    pairStep mtrId 50 ⟨[mkBlob "t1" "p" 0 40 40 100, mkBlob "t2" "p" 5 40 40 100], []⟩ (0, 1)
      = ⟨[mkBlob "t1" "p" 0 40 40 100, mkBlob "t2" "p" 5 40 40 100], []⟩ :=
  same_owner_no_early_merge mtrId 50 _ 0 1 _ _ rfl rfl rfl (by decide) (Or.inl (by decide))

/-- C5: in a differing-owner pair, a blob is consumed only under the 1.1
mass margin and the depth test (distance below consumer radius minus half
the consumed radius); when neither direction passes both, the step changes
nothing. -/
theorem engulf_requires_margin_and_depth (mtr : ℚ → ℚ) (now : ℚ) (s : ScanState)
    (i j : Nat) (b1 b2 : Blob)
    (h1 : s.blobs[i]? = some b1) (h2 : s.blobs[j]? = some b2)
    (hnc1 : b1.id ∉ s.consumed) (hnc2 : b2.id ∉ s.consumed) (hid : b1.id ≠ b2.id)
    (hdiff : b1.playerId ≠ b2.playerId) :
    (b2.id ∈ (pairStep mtr now s (i, j)).consumed →
      b1.mass > b2.mass * (11 / 10) ∧ distLt b1.pos b2.pos (b1.radius - b2.radius * (1 / 2))) ∧
    (b1.id ∈ (pairStep mtr now s (i, j)).consumed →
      b2.mass > b1.mass * (11 / 10) ∧ distLt b1.pos b2.pos (b2.radius - b1.radius * (1 / 2))) ∧
    ((¬ (b1.mass > b2.mass * (11 / 10) ∧
          distLt b1.pos b2.pos (b1.radius - b2.radius * (1 / 2))) ∧
      ¬ (b2.mass > b1.mass * (11 / 10) ∧
          distLt b1.pos b2.pos (b2.radius - b1.radius * (1 / 2)))) →
      pairStep mtr now s (i, j) = s) := by
  rw [pairStep_some h1 h2]
  have hsame : ¬ (b1.playerId = b2.playerId ∧ b1.playerId ≠ "") := fun hh => hdiff hh.1
  have hc : ¬ (b1.id ∈ s.consumed ∨ b2.id ∈ s.consumed) := by
    rintro (h | h)
    · exact hnc1 h
    · exact hnc2 h
  rw [if_neg hc, if_neg hsame]
  split_ifs with he1 he2
  · refine ⟨fun _ => he1, fun hmem => ?_, fun hn => absurd he1 hn.1⟩
    simp only [List.mem_append, List.mem_singleton] at hmem
    rcases hmem with h | h
    · exact absurd h hnc1
    · exact absurd h hid
  · refine ⟨fun hmem => ?_, fun _ => he2, fun hn => absurd he2 hn.2⟩
    simp only [List.mem_append, List.mem_singleton] at hmem
    rcases hmem with h | h
    · exact absurd h hnc2
    · exact absurd h.symm hid
  · exact ⟨fun hmem => absurd hmem hnc2, fun hmem => absurd hmem hnc1, fun _ => rfl⟩

/-- Witness for `engulf_requires_margin_and_depth`: equal masses, no
margin in either direction, so the step is a no-op. -/
theorem engulf_requires_margin_and_depth_witness :
    pairStep mtrId 0 ⟨[mkBlob "e1" "A" 0 40 40 0, mkBlob "e2" "B" 5 40 40 0], []⟩ (0, 1)
      = ⟨[mkBlob "e1" "A" 0 40 40 0, mkBlob "e2" "B" 5 40 40 0], []⟩ :=
  (engulf_requires_margin_and_depth mtrId 0
      ⟨[mkBlob "e1" "A" 0 40 40 0, mkBlob "e2" "B" 5 40 40 0], []⟩ 0 1
      (mkBlob "e1" "A" 0 40 40 0) (mkBlob "e2" "B" 5 40 40 0) rfl rfl (by decide) (by decide)
      (by decide) (by decide)).2.2 (by norm_num [mkBlob, distLt, dist2])

/-- A blob not owned by `pid` passes through the split fold unchanged. -/
theorem splitStep_skip (mtr : ℚ → ℚ) (dir : Blob → Vec) (newId : Nat → String)
    (rt : ℚ) (pid : String) (pbLen maxB : Nat) (acc : List Blob × List Blob) (b : Blob)
    (hb : ¬ b.playerId = pid) :
    splitStep mtr dir newId rt pid pbLen maxB acc b = (acc.1 ++ [b], acc.2) := by
  unfold splitStep
  rw [if_neg (fun hh => hb hh.1)]

/-- The split fold over blobs none of which the player owns keeps the list
and creates no new blobs. -/
theorem splitFold_skip (mtr : ℚ → ℚ) (dir : Blob → Vec) (newId : Nat → String)
    (rt : ℚ) (pid : String) (pbLen maxB : Nat) (l : List Blob) (acc : List Blob × List Blob)
    (h : ∀ b ∈ l, ¬ b.playerId = pid) :
    l.foldl (splitStep mtr dir newId rt pid pbLen maxB) acc = (acc.1 ++ l, acc.2) := by
  induction l generalizing acc with
  | nil => simp
  | cons b bs ih =>
    rw [List.foldl_cons, splitStep_skip mtr dir newId rt pid pbLen maxB acc b (h b (.head _)),
      ih _ (fun x hx => h x (.tail _ hx))]
    simp

/-- C9: a player action called with a player id owning no blobs leaves the
world (blobs and food) unchanged, for `disconnectPlayer`,
`updatePlayerInput` and `playerSplit` alike. -/
theorem unknown_player_actions_noop (steer : List Blob → Blob → Vec) (mtr : ℚ → ℚ)
    (dir : Blob → Vec) (newId : Nat → String) (now : ℚ) (pid : String) (w : World)
    (h : w.blobs.filter (fun b => b.playerId = pid) = []) :
    disconnectPlayer pid w = w ∧ updatePlayerInput steer pid w = w ∧
    playerSplit mtr dir newId now pid w = w := by
  have hall : ∀ b ∈ w.blobs, ¬ b.playerId = pid := by
    intro b hb
    have := List.filter_eq_nil_iff.mp h b hb
    simpa using this
  refine ⟨?_, ?_, ?_⟩
  · unfold disconnectPlayer
    have he : w.blobs.filter (fun b => ¬ b.playerId = pid) = w.blobs :=
      List.filter_eq_self.mpr (fun b hb => by simpa using hall b hb)
    rw [he]
  · unfold updatePlayerInput
    rw [h]
    rfl
  · unfold playerSplit
    rw [h]
    rw [if_neg (by norm_num [getMaxBlobsForMass, MIN_MASS_TO_SPLIT])]
    rw [splitFold_skip mtr dir newId _ pid _ _ w.blobs ([], []) hall]
    rfl

/-- Witness for `unknown_player_actions_noop`: a world owned entirely by
player A, actions invoked for the absent player Z. -/
theorem unknown_player_actions_noop_witness :
    disconnectPlayer "Z" ⟨[mkBlob "a" "A" 0 40 40 0], [foodW]⟩
        = ⟨[mkBlob "a" "A" 0 40 40 0], [foodW]⟩ ∧
    updatePlayerInput steerW "Z" ⟨[mkBlob "a" "A" 0 40 40 0], [foodW]⟩
        = ⟨[mkBlob "a" "A" 0 40 40 0], [foodW]⟩ ∧
    playerSplit mtrId dirW idW 0 "Z" ⟨[mkBlob "a" "A" 0 40 40 0], [foodW]⟩
        = ⟨[mkBlob "a" "A" 0 40 40 0], [foodW]⟩ :=
  unknown_player_actions_noop steerW mtrId dirW idW 0 "Z"
    ⟨[mkBlob "a" "A" 0 40 40 0], [foodW]⟩ (by decide)

/-- Eating keeps the blob's stored radius in sync with its mass. -/
theorem foldl_eatStep_consistent (mtr : ℚ → ℚ) (food : List Food) (acc : Blob × List Food)
    (h : acc.1.radius = mtr acc.1.mass) :
    (food.foldl (eatStep mtr) acc).1.radius = mtr (food.foldl (eatStep mtr) acc).1.mass := by
  induction food generalizing acc with
  | nil => exact h
  | cons f fs ih =>
    refine ih _ ?_
    unfold eatStep
    split_ifs
    · rfl
    · exact h

/-- The eating phase keeps every blob's radius in sync with its mass. -/
theorem eatPhase_consistent (mtr : ℚ → ℚ) (bs : List Blob) (food : List Food)
    (h : radiiConsistent mtr bs) :
    radiiConsistent mtr (eatPhase mtr bs food).1 := by
  induction bs generalizing food with
  | nil =>
    intro x hx
    simp [eatPhase] at hx
  | cons b bs ih =>
    intro x hx
    rcases List.mem_cons.mp hx with rfl | hx
    · exact foldl_eatStep_consistent mtr food (b, []) (h b (.head _))
    · exact ih _ (fun y hy => h y (.tail _ hy)) x hx

/-- Movement does not touch mass or radius. -/
theorem move_consistent (mtr : ℚ → ℚ) (l : List Blob) (h : radiiConsistent mtr l) :
    radiiConsistent mtr (l.map moveBlob) := by
  intro x hx
  rcases List.mem_map.mp hx with ⟨y, hy, rfl⟩
  exact h y hy

/-- A pair resolution keeps every blob's radius in sync with its mass. -/
theorem pairStep_consistent (mtr : ℚ → ℚ) (now : ℚ) (s : ScanState) (ij : Nat × Nat)
    (h : radiiConsistent mtr s.blobs) :
    radiiConsistent mtr (pairStep mtr now s ij).blobs := by
  rcases pairStep_dichotomy mtr now s ij with hstep | ⟨k, b, l, _, _, hblobs, _⟩
  · rw [hstep]
    exact h
  · rw [hblobs]
    intro x hx
    rcases List.mem_or_eq_of_mem_set hx with hx | rfl
    · exact h x hx
    · rfl

/-- The scan keeps every blob's radius in sync with its mass. -/
theorem foldl_pairStep_consistent (mtr : ℚ → ℚ) (now : ℚ) (l : List (Nat × Nat))
    (s : ScanState) (h : radiiConsistent mtr s.blobs) :
    radiiConsistent mtr ((l.foldl (pairStep mtr now) s).blobs) := by
  induction l generalizing s with
  | nil => exact h
  | cons ij rest ih => exact ih _ (pairStep_consistent mtr now s ij h)

/-- `Map.set` with a consistent blob preserves consistency. -/
theorem mapSet_consistent (mtr : ℚ → ℚ) (l : List Blob) (b : Blob)
    (h : radiiConsistent mtr l) (hb : b.radius = mtr b.mass) :
    radiiConsistent mtr (mapSet l b) := by
  unfold mapSet
  split_ifs
  · intro x hx
    rcases List.mem_map.mp hx with ⟨y, hy, rfl⟩
    split_ifs
    · exact hb
    · exact h y hy
  · intro x hx
    rcases List.mem_append.mp hx with hx | hx
    · exact h x hx
    · rw [List.mem_singleton.mp hx]
      exact hb

/-- Setting a list of consistent blobs preserves consistency. -/
theorem foldl_mapSet_consistent (mtr : ℚ → ℚ) (new : List Blob)
    (hnew : radiiConsistent mtr new) :
    ∀ l : List Blob, radiiConsistent mtr l → radiiConsistent mtr (new.foldl mapSet l) := by
  induction new with
  | nil => exact fun l hl => hl
  | cons b bs ih =>
    intro l hl
    exact ih (fun y hy => hnew y (.tail _ hy)) _
      (mapSet_consistent mtr l b hl (hnew b (.head _)))

/-- The split fold keeps both the updated list and the new-blob list
consistent. -/
theorem splitFold_consistent (mtr : ℚ → ℚ) (dir : Blob → Vec) (newId : Nat → String)
    (rt : ℚ) (pid : String) (pbLen maxB : Nat) (l : List Blob)
    (h : radiiConsistent mtr l) :
    ∀ acc : List Blob × List Blob,
      radiiConsistent mtr acc.1 → radiiConsistent mtr acc.2 →
      radiiConsistent mtr (l.foldl (splitStep mtr dir newId rt pid pbLen maxB) acc).1 ∧
      radiiConsistent mtr (l.foldl (splitStep mtr dir newId rt pid pbLen maxB) acc).2 := by
  induction l with
  | nil => exact fun acc h1 h2 => ⟨h1, h2⟩
  | cons b bs ih =>
    intro acc h1 h2
    refine ih (fun y hy => h y (.tail _ hy)) _ ?_ ?_
    · unfold splitStep
      split_ifs
      · intro x hx
        rcases List.mem_append.mp hx with hx | hx
        · exact h1 x hx
        · rw [List.mem_singleton.mp hx]
      · intro x hx
        rcases List.mem_append.mp hx with hx | hx
        · exact h1 x hx
        · rw [List.mem_singleton.mp hx]
          exact h b (.head _)
    · unfold splitStep
      split_ifs
      · intro x hx
        rcases List.mem_append.mp hx with hx | hx
        · exact h2 x hx
        · rw [List.mem_singleton.mp hx]
      · exact h2

/-- C6: every operation that creates or mutates blobs (join via
`createBlob`/`connectPlayer`, food consumption, recombination and
engulfment inside `tick`, `playerSplit`, steering, disconnect) keeps every
live blob's stored radius equal to the radius function of its stored mass:
the radius is never stale. -/
theorem radius_never_stale (mtr : ℚ → ℚ) :
    (∀ (pid nm bid : String) (p : Vec) (c : String) (now : ℚ),
      (createBlob mtr pid nm bid p c now).radius
        = mtr (createBlob mtr pid nm bid p c now).mass) ∧
    (∀ (pid nm bid : String) (p : Vec) (c : String) (now : ℚ) (w : World),
      radiiConsistent mtr w.blobs →
      radiiConsistent mtr (connectPlayer mtr pid nm bid p c now w).blobs) ∧
    (∀ (supply : Nat → Food) (now : ℚ) (w : World), radiiConsistent mtr w.blobs →
      radiiConsistent mtr (tick mtr supply now w).blobs) ∧
    (∀ (dir : Blob → Vec) (newId : Nat → String) (now : ℚ) (pid : String) (w : World),
      radiiConsistent mtr w.blobs →
      radiiConsistent mtr (playerSplit mtr dir newId now pid w).blobs) ∧
    (∀ (steer : List Blob → Blob → Vec) (pid : String) (w : World),
      radiiConsistent mtr w.blobs →
      radiiConsistent mtr (updatePlayerInput steer pid w).blobs) ∧
    (∀ (pid : String) (w : World), radiiConsistent mtr w.blobs →
      radiiConsistent mtr (disconnectPlayer pid w).blobs) := by
  refine ⟨fun _ _ _ _ _ _ => rfl, ?_, ?_, ?_, ?_, ?_⟩
  · intro pid nm bid p c now w h
    exact mapSet_consistent mtr w.blobs _ h rfl
  · intro supply now w h
    simp only [tick]
    intro x hx
    have hscan : radiiConsistent mtr
        (runScan mtr now (eatPhase mtr (w.blobs.map moveBlob) w.food).1).blobs := by
      unfold runScan
      exact foldl_pairStep_consistent mtr now _ _
        (eatPhase_consistent mtr _ _ (move_consistent mtr _ h))
    exact hscan x (List.mem_of_mem_filter hx)
  · intro dir newId now pid w h
    simp only [playerSplit]
    split_ifs
    · exact h
    · have hsf := splitFold_consistent mtr dir newId (now + RECOMBINE_DELAY_MS) pid
        (w.blobs.filter (fun b => b.playerId = pid)).length
        (getMaxBlobsForMass ((w.blobs.filter (fun b => b.playerId = pid)).map
          (fun b => b.mass)).sum)
        w.blobs h ([], []) (fun x hx => by simp at hx) (fun x hx => by simp at hx)
      exact foldl_mapSet_consistent mtr _ hsf.2 _ hsf.1
  · intro steer pid w h
    simp only [updatePlayerInput]
    split_ifs
    · exact h
    · intro x hx
      rcases List.mem_map.mp hx with ⟨y, hy, rfl⟩
      split_ifs
      · exact h y hy
      · exact h y hy
  · intro pid w h
    exact fun x hx => h x (List.mem_of_mem_filter hx)

/-- Witness for `radius_never_stale`: the tick clause at a concrete
consistent world. -/
theorem radius_never_stale_witness :
    radiiConsistent mtrId
      (tick mtrId supplyW 0 ⟨[mkBlob "a" "A" 0 40 40 0], [foodW]⟩).blobs :=
  (radius_never_stale mtrId).2.2.1 supplyW 0 ⟨[mkBlob "a" "A" 0 40 40 0], [foodW]⟩
    (by intro b hb; rw [List.mem_singleton.mp hb]; rfl)

/-- C1: when a scan pair with differing owners resolves as an engulfment,
the winner's mass immediately after that pair's resolution is the sum of
both blobs' pre-collision masses, and the loser's id is gone from the blob
map once the whole scan and the deletion of consumed blobs complete.  The
hypotheses place the pair `(i, j)` anywhere inside the tick's pair list,
with `s` the scan state the earlier pairs produced. -/
theorem engulf_conserves_mass_and_removes_loser (mtr : ℚ → ℚ) (now : ℚ)
    (blobs0 : List Blob) (pre rest : List (Nat × Nat)) (i j : Nat) (b1 b2 : Blob)
    (s : ScanState)
    (hsplit : pairIndices blobs0.length = pre ++ (i, j) :: rest)
    (hs : pre.foldl (pairStep mtr now) ⟨blobs0, []⟩ = s)
    (h1 : s.blobs[i]? = some b1) (h2 : s.blobs[j]? = some b2)
    (hnc : ¬ (b1.id ∈ s.consumed ∨ b2.id ∈ s.consumed))
    (hdiff : ¬ (b1.playerId = b2.playerId ∧ b1.playerId ≠ "")) :
    ((b1.mass > b2.mass * (11 / 10) ∧
        distLt b1.pos b2.pos (b1.radius - b2.radius * (1 / 2))) →
      (pairStep mtr now s (i, j)).blobs[i]? =
        some { b1 with mass := b1.mass + b2.mass, radius := mtr (b1.mass + b2.mass) } ∧
      b2.id ∉ (scanSurvivors mtr now blobs0).map (fun b => b.id)) ∧
    ((¬ (b1.mass > b2.mass * (11 / 10) ∧
        distLt b1.pos b2.pos (b1.radius - b2.radius * (1 / 2))) ∧
      (b2.mass > b1.mass * (11 / 10) ∧
        distLt b1.pos b2.pos (b2.radius - b1.radius * (1 / 2)))) →
      (pairStep mtr now s (i, j)).blobs[j]? =
        some { b2 with mass := b2.mass + b1.mass, radius := mtr (b2.mass + b1.mass) } ∧
      b1.id ∉ (scanSurvivors mtr now blobs0).map (fun b => b.id)) := by
  have hrun : runScan mtr now blobs0
      = rest.foldl (pairStep mtr now) (pairStep mtr now s (i, j)) := by
    unfold runScan
    rw [hsplit, List.foldl_append, List.foldl_cons, hs]
  have habs : ∀ x : String, x ∈ (pairStep mtr now s (i, j)).consumed →
      x ∉ (scanSurvivors mtr now blobs0).map (fun b => b.id) := by
    intro x hx hmem
    have hxr : x ∈ (runScan mtr now blobs0).consumed := by
      rw [hrun]
      exact foldl_consumed_mono mtr now rest _ hx
    rcases List.mem_map.mp hmem with ⟨b, hb, rfl⟩
    unfold scanSurvivors at hb
    rcases List.mem_filter.mp hb with ⟨_, hp⟩
    simp only [decide_not, Bool.not_eq_eq_eq_not, Bool.not_true, decide_eq_false_iff_not] at hp
    exact hp hxr
  have hlen1 : i < s.blobs.length := by
    rcases List.getElem?_eq_some.mp h1 with ⟨hl, _⟩
    exact hl
  have hlen2 : j < s.blobs.length := by
    rcases List.getElem?_eq_some.mp h2 with ⟨hl, _⟩
    exact hl
  constructor
  · intro hcond
    have hstep : pairStep mtr now s (i, j) =
        { blobs := s.blobs.set i
            { b1 with mass := b1.mass + b2.mass, radius := mtr (b1.mass + b2.mass) },
          consumed := s.consumed ++ [b2.id] } := by
      rw [pairStep_some h1 h2, if_neg hnc, if_neg hdiff, if_pos hcond]
    refine ⟨?_, habs b2.id ?_⟩
    · rw [hstep]
      exact List.getElem?_set_self hlen1
    · rw [hstep]
      simp
  · rintro ⟨hncond, hcond2⟩
    have hstep : pairStep mtr now s (i, j) =
        { blobs := s.blobs.set j
            { b2 with mass := b2.mass + b1.mass, radius := mtr (b2.mass + b1.mass) },
          consumed := s.consumed ++ [b1.id] } := by
      rw [pairStep_some h1 h2, if_neg hnc, if_neg hdiff, if_neg hncond, if_pos hcond2]
    refine ⟨?_, habs b1.id ?_⟩
    · rw [hstep]
      exact List.getElem?_set_self hlen2
    · rw [hstep]
      simp

/-- Witness for `engulf_conserves_mass_and_removes_loser`: blob A of mass
110 at distance 5 from blob B of mass 50 (the spec's own scenario). -/
theorem engulf_conserves_mass_and_removes_loser_witness :
    (pairStep mtrId 0 ⟨[mkBlob "w1" "A" 0 110 56 0, mkBlob "w2" "B" 5 50 40 0], []⟩
        (0, 1)).blobs[0]?
      = some { mkBlob "w1" "A" 0 110 56 0 with
                 mass := (mkBlob "w1" "A" 0 110 56 0).mass + (mkBlob "w2" "B" 5 50 40 0).mass
                 radius := mtrId ((mkBlob "w1" "A" 0 110 56 0).mass
                   + (mkBlob "w2" "B" 5 50 40 0).mass) } ∧
    (mkBlob "w2" "B" 5 50 40 0).id ∉
      (scanSurvivors mtrId 0 [mkBlob "w1" "A" 0 110 56 0, mkBlob "w2" "B" 5 50 40 0]).map
        (fun b => b.id) :=
  (engulf_conserves_mass_and_removes_loser mtrId 0
      [mkBlob "w1" "A" 0 110 56 0, mkBlob "w2" "B" 5 50 40 0] [] [] 0 1
      (mkBlob "w1" "A" 0 110 56 0) (mkBlob "w2" "B" 5 50 40 0)
      ⟨[mkBlob "w1" "A" 0 110 56 0, mkBlob "w2" "B" 5 50 40 0], []⟩
      (by decide) rfl rfl rfl (by decide) (by decide)).1
    (by norm_num [mkBlob, distLt, dist2])

/-- C10: the pair-resolution phase touches nothing but the winner's mass
and radius.  Each pair step is either the identity or updates exactly one
blob in place, changing only its `mass` and `radius` fields and appending
exactly the absorbed blob's id; and across the whole scan every blob slot
keeps its id, owner, position, velocity, recombine time, name and color,
so blobs not party to any resolved pair pass through untouched. -/
theorem scan_frame_effect (mtr : ℚ → ℚ) (now : ℚ) :
    (∀ (s : ScanState) (ij : Nat × Nat),
      pairStep mtr now s ij = s ∨
      ∃ (k : Nat) (b l : Blob), s.blobs[k]? = some b ∧ l ∈ s.blobs ∧
        (pairStep mtr now s ij).blobs
          = s.blobs.set k { b with mass := b.mass + l.mass, radius := mtr (b.mass + l.mass) } ∧
        (pairStep mtr now s ij).consumed = s.consumed ++ [l.id]) ∧
    (∀ (blobs : List Blob) (k : Nat) (b : Blob), blobs[k]? = some b →
      ∃ m r, (runScan mtr now blobs).blobs[k]? = some { b with mass := m, radius := r }) :=
  ⟨pairStep_dichotomy mtr now, runScan_frame mtr now⟩

/-- Witness for `scan_frame_effect`: the frame clause at a one-blob world. -/
theorem scan_frame_effect_witness :
    ∃ m r, (runScan mtrId 0 [mkBlob "f1" "A" 0 40 40 0]).blobs[0]?
      = some { mkBlob "f1" "A" 0 40 40 0 with mass := m, radius := r } :=
  (scan_frame_effect mtrId 0).2 [mkBlob "f1" "A" 0 40 40 0] 0 (mkBlob "f1" "A" 0 40 40 0) rfl

/-- One split step appends exactly one blob (the original or its halved
version) to the kept list, preserving its owner and id. -/
theorem splitStep_fst_shape (mtr : ℚ → ℚ) (dir : Blob → Vec) (newId : Nat → String)
    (rt : ℚ) (pid : String) (pbLen maxB : Nat) (acc : List Blob × List Blob) (b : Blob) :
    ∃ c : Blob, (splitStep mtr dir newId rt pid pbLen maxB acc b).1 = acc.1 ++ [c] ∧
      c.playerId = b.playerId ∧ c.id = b.id := by
  simp only [splitStep]
  split_ifs
  · exact ⟨_, rfl, rfl, rfl⟩
  · exact ⟨b, rfl, rfl, rfl⟩

/-- The split fold adds to the player's kept-blob count exactly the number
of that player's blobs in the input list. -/
theorem splitFold_filter_len (mtr : ℚ → ℚ) (dir : Blob → Vec) (newId : Nat → String)
    (rt : ℚ) (pid : String) (pbLen maxB : Nat) (l : List Blob) :
    ∀ acc : List Blob × List Blob,
      ((l.foldl (splitStep mtr dir newId rt pid pbLen maxB) acc).1.filter
          (fun b => b.playerId = pid)).length
        = (acc.1.filter (fun b => b.playerId = pid)).length
          + (l.filter (fun b => b.playerId = pid)).length := by
  induction l with
  | nil =>
    intro acc
    simp
  | cons b bs ih =>
    intro acc
    rw [List.foldl_cons, ih]
    obtain ⟨c, hc1, hcp, _⟩ := splitStep_fst_shape mtr dir newId rt pid pbLen maxB acc b
    rw [hc1, List.filter_append, List.length_append, List.filter_singleton]
    by_cases hp : b.playerId = pid
    · have hc : decide (c.playerId = pid) = true := by
        rw [hcp]
        exact decide_eq_true hp
      simp [List.filter_cons, hc, hp]
      omega
    · have hc : decide (c.playerId = pid) = false := by
        rw [hcp]
        exact decide_eq_false hp
      simp [List.filter_cons, hc, hp]

/-- The split fold preserves the id sequence of the kept list. -/
theorem splitFold_ids (mtr : ℚ → ℚ) (dir : Blob → Vec) (newId : Nat → String)
    (rt : ℚ) (pid : String) (pbLen maxB : Nat) (l : List Blob) :
    ∀ acc : List Blob × List Blob,
      (l.foldl (splitStep mtr dir newId rt pid pbLen maxB) acc).1.map (fun b => b.id)
        = acc.1.map (fun b => b.id) ++ l.map (fun b => b.id) := by
  induction l with
  | nil =>
    intro acc
    simp
  | cons b bs ih =>
    intro acc
    rw [List.foldl_cons, ih]
    obtain ⟨c, hc1, _, hcid⟩ := splitStep_fst_shape mtr dir newId rt pid pbLen maxB acc b
    rw [hc1, List.map_append, List.map_cons, hcid]
    simp

/-- The split fold never pushes the existing-plus-new piece count past the
cap: a new piece is only created while strictly below it. -/
theorem splitFold_snd_le (mtr : ℚ → ℚ) (dir : Blob → Vec) (newId : Nat → String)
    (rt : ℚ) (pid : String) (pbLen maxB : Nat) (l : List Blob) :
    ∀ acc : List Blob × List Blob, pbLen + acc.2.length ≤ maxB →
      pbLen + (l.foldl (splitStep mtr dir newId rt pid pbLen maxB) acc).2.length ≤ maxB := by
  induction l with
  | nil => exact fun acc h => h
  | cons b bs ih =>
    intro acc h
    rw [List.foldl_cons]
    refine ih _ ?_
    simp only [splitStep]
    split_ifs with hcond
    · have hlt := hcond.2.2
      simp only [List.length_append, List.length_singleton]
      omega
    · exact h

/-- A `Map.set`-style replacement map is the identity when no element
carries the key. -/
theorem map_keep_of_no_id (b : Blob) (l : List Blob) (h : ∀ x ∈ l, x.id ≠ b.id) :
    l.map (fun x => if x.id = b.id then b else x) = l := by
  induction l with
  | nil => rfl
  | cons x xs ih =>
    rw [List.map_cons, if_neg (h x (.head _)), ih (fun y hy => h y (.tail _ hy))]

/-- `Map.set` keeps the key sequence duplicate-free. -/
theorem mapSet_ids_nodup (l : List Blob) (b : Blob)
    (h : (l.map (fun x => x.id)).Nodup) :
    ((mapSet l b).map (fun x => x.id)).Nodup := by
  unfold mapSet
  split_ifs with hany
  · have he : (l.map (fun x => if x.id = b.id then b else x)).map (fun x => x.id)
        = l.map (fun x => x.id) := by
      rw [List.map_map]
      refine List.map_congr_left ?_
      intro x _
      by_cases hx : x.id = b.id
      · simp [hx]
      · simp [hx]
    rw [he]
    exact h
  · have hb : b.id ∉ l.map (fun x => x.id) := by
      intro hmem
      rcases List.mem_map.mp hmem with ⟨x, hx, hxe⟩
      rw [List.any_eq_true] at hany
      exact hany ⟨x, hx, decide_eq_true hxe⟩
    rw [List.map_append]
    simp [List.nodup_append, h, hb]

/-- Replacing the (unique) element with the new blob's key changes the
filtered count by at most one. -/
theorem replace_filter_le (p : Blob → Bool) (b : Blob) :
    ∀ l : List Blob, (l.map (fun x => x.id)).Nodup →
      ((l.map (fun x => if x.id = b.id then b else x)).filter p).length
        ≤ (l.filter p).length + 1 := by
  intro l
  induction l with
  | nil =>
    intro _
    simp
  | cons x xs ih =>
    intro hnd
    rw [List.map_cons]
    by_cases hx : x.id = b.id
    · have hxs : ∀ y ∈ xs, y.id ≠ b.id := by
        intro y hy he
        have hnotin : x.id ∉ xs.map (fun x => x.id) := by
          rw [List.map_cons, List.nodup_cons] at hnd
          exact hnd.1
        exact hnotin (by rw [hx, ← he]; exact List.mem_map_of_mem _ hy)
      rw [if_pos hx, map_keep_of_no_id b xs hxs]
      simp only [List.filter_cons]
      by_cases hpb : p b <;> by_cases hpx : p x <;> simp [hpb, hpx] <;> omega
    · rw [if_neg hx]
      have hih := ih (by rw [List.map_cons, List.nodup_cons] at hnd; exact hnd.2)
      simp only [List.filter_cons]
      by_cases hpx : p x <;> simp [hpx] <;> omega

/-- `Map.set` raises any filtered count by at most one (unique keys). -/
theorem mapSet_filter_le (p : Blob → Bool) (b : Blob) (l : List Blob)
    (hnd : (l.map (fun x => x.id)).Nodup) :
    ((mapSet l b).filter p).length ≤ (l.filter p).length + 1 := by
  unfold mapSet
  split_ifs
  · exact replace_filter_le p b l hnd
  · rw [List.filter_append, List.length_append, List.filter_singleton]
    by_cases hpb : p b <;> simp [hpb]

/-- Setting a batch of blobs raises any filtered count by at most the
batch size (unique keys). -/
theorem foldl_mapSet_filter_le (p : Blob → Bool) (new : List Blob) :
    ∀ l : List Blob, (l.map (fun x => x.id)).Nodup →
      ((new.foldl mapSet l).filter p).length ≤ (l.filter p).length + new.length := by
  induction new with
  | nil =>
    intro l _
    simp
  | cons b bs ih =>
    intro l hnd
    rw [List.foldl_cons]
    refine le_trans (ih (mapSet l b) (mapSet_ids_nodup l b hnd)) ?_
    have := mapSet_filter_le p b l hnd
    simp only [List.length_cons]
    omega

/-- `playerSplit` reduction: at or above the cap the call is a no-op. -/
theorem playerSplit_stop (mtr : ℚ → ℚ) (dir : Blob → Vec) (newId : Nat → String)
    (now : ℚ) (pid : String) (w : World)
    (h : (w.blobs.filter (fun b => b.playerId = pid)).length
        ≥ getMaxBlobsForMass
            (((w.blobs.filter (fun b => b.playerId = pid)).map (fun b => b.mass)).sum)) :
    playerSplit mtr dir newId now pid w = w := by
  simp only [playerSplit]
  rw [if_pos h]

/-- `playerSplit` reduction: below the cap the result is the split fold
followed by `Map.set` of the new blobs. -/
theorem playerSplit_go (mtr : ℚ → ℚ) (dir : Blob → Vec) (newId : Nat → String)
    (now : ℚ) (pid : String) (w : World)
    (h : ¬ (w.blobs.filter (fun b => b.playerId = pid)).length
        ≥ getMaxBlobsForMass
            (((w.blobs.filter (fun b => b.playerId = pid)).map (fun b => b.mass)).sum)) :
    playerSplit mtr dir newId now pid w
      = { w with blobs := List.foldl mapSet
                   (List.foldl (splitStep mtr dir newId (now + RECOMBINE_DELAY_MS) pid
                     (w.blobs.filter (fun b => b.playerId = pid)).length
                     (getMaxBlobsForMass
                       (((w.blobs.filter (fun b => b.playerId = pid)).map
                         (fun b => b.mass)).sum)))
                     ([], []) w.blobs).1
                   (List.foldl (splitStep mtr dir newId (now + RECOMBINE_DELAY_MS) pid
                     (w.blobs.filter (fun b => b.playerId = pid)).length
                     (getMaxBlobsForMass
                       (((w.blobs.filter (fun b => b.playerId = pid)).map
                         (fun b => b.mass)).sum)))
                     ([], []) w.blobs).2 } := by
  simp only [playerSplit]
  rw [if_neg h]

/-- C2: a split never lifts the player's blob count above
`getMaxBlobsForMass` of the player's total mass at request time (were the
count somehow already above the cap, the call would be a no-op and not
raise it further); in particular a split requested at or above the cap
leaves the world unchanged.  `hids` is the blob-map invariant that keys
are unique. -/
theorem split_never_exceeds_cap (mtr : ℚ → ℚ) (dir : Blob → Vec) (newId : Nat → String)
    (now : ℚ) (pid : String) (w : World)
    (hids : (w.blobs.map (fun x => x.id)).Nodup) :
    ((playerSplit mtr dir newId now pid w).blobs.filter (fun b => b.playerId = pid)).length
      ≤ max ((w.blobs.filter (fun b => b.playerId = pid)).length)
          (getMaxBlobsForMass
            (((w.blobs.filter (fun b => b.playerId = pid)).map (fun b => b.mass)).sum)) ∧
    ((w.blobs.filter (fun b => b.playerId = pid)).length
        ≥ getMaxBlobsForMass
            (((w.blobs.filter (fun b => b.playerId = pid)).map (fun b => b.mass)).sum) →
      playerSplit mtr dir newId now pid w = w) := by
  by_cases hc : (w.blobs.filter (fun b => b.playerId = pid)).length
      ≥ getMaxBlobsForMass
          (((w.blobs.filter (fun b => b.playerId = pid)).map (fun b => b.mass)).sum)
  · refine ⟨?_, fun _ => playerSplit_stop mtr dir newId now pid w hc⟩
    rw [playerSplit_stop mtr dir newId now pid w hc]
    exact le_max_left _ _
  · refine ⟨?_, fun h => absurd h hc⟩
    rw [playerSplit_go mtr dir newId now pid w hc]
    have hnd1 : ((List.foldl (splitStep mtr dir newId (now + RECOMBINE_DELAY_MS) pid
        (w.blobs.filter (fun b => b.playerId = pid)).length
        (getMaxBlobsForMass
          (((w.blobs.filter (fun b => b.playerId = pid)).map (fun b => b.mass)).sum)))
        ([], []) w.blobs).1.map (fun x => x.id)).Nodup := by
      rw [splitFold_ids]
      simpa using hids
    have hcnt := splitFold_filter_len mtr dir newId (now + RECOMBINE_DELAY_MS) pid
      (w.blobs.filter (fun b => b.playerId = pid)).length
      (getMaxBlobsForMass
        (((w.blobs.filter (fun b => b.playerId = pid)).map (fun b => b.mass)).sum))
      w.blobs ([], [])
    have hsnd := splitFold_snd_le mtr dir newId (now + RECOMBINE_DELAY_MS) pid
      (w.blobs.filter (fun b => b.playerId = pid)).length
      (getMaxBlobsForMass
        (((w.blobs.filter (fun b => b.playerId = pid)).map (fun b => b.mass)).sum))
      w.blobs ([], []) (by simp only [List.length_nil, Nat.add_zero]; omega)
    have hfin := foldl_mapSet_filter_le (fun b => decide (b.playerId = pid))
      (List.foldl (splitStep mtr dir newId (now + RECOMBINE_DELAY_MS) pid
        (w.blobs.filter (fun b => b.playerId = pid)).length
        (getMaxBlobsForMass
          (((w.blobs.filter (fun b => b.playerId = pid)).map (fun b => b.mass)).sum)))
        ([], []) w.blobs).2
      (List.foldl (splitStep mtr dir newId (now + RECOMBINE_DELAY_MS) pid
        (w.blobs.filter (fun b => b.playerId = pid)).length
        (getMaxBlobsForMass
          (((w.blobs.filter (fun b => b.playerId = pid)).map (fun b => b.mass)).sum)))
        ([], []) w.blobs).1 hnd1
    refine le_trans hfin ?_
    rw [hcnt]
    simp only [List.filter_nil, List.length_nil, Nat.zero_add]
    refine le_trans ?_ (le_max_right _ _)
    omega

/-- Witness for `split_never_exceeds_cap`: one blob of mass 20 (so the cap
`getMaxBlobsForMass 20 = 1` is already met) — the split is a no-op and the
count stays within the cap. -/
theorem split_never_exceeds_cap_witness :
    ((playerSplit mtrId dirW idW 0 "A" ⟨[mkBlob "a" "A" 0 20 26 0], []⟩).blobs.filter
        (fun b => b.playerId = "A")).length
      ≤ max (((⟨[mkBlob "a" "A" 0 20 26 0], []⟩ : World).blobs.filter
            (fun b => b.playerId = "A")).length)
          (getMaxBlobsForMass
            ((((⟨[mkBlob "a" "A" 0 20 26 0], []⟩ : World).blobs.filter
                (fun b => b.playerId = "A")).map (fun b => b.mass)).sum)) ∧
    playerSplit mtrId dirW idW 0 "A" ⟨[mkBlob "a" "A" 0 20 26 0], []⟩
      = ⟨[mkBlob "a" "A" 0 20 26 0], []⟩ :=
  ⟨(split_never_exceeds_cap mtrId dirW idW 0 "A" ⟨[mkBlob "a" "A" 0 20 26 0], []⟩
      (by decide)).1,
   (split_never_exceeds_cap mtrId dirW idW 0 "A" ⟨[mkBlob "a" "A" 0 20 26 0], []⟩
      (by decide)).2
     (by norm_num [mkBlob, getMaxBlobsForMass, MIN_MASS_TO_SPLIT])⟩

/-- Membership in a stable descending insertion. -/
theorem mem_insertEntry (e y : LeaderboardEntry) (l : List LeaderboardEntry) :
    y ∈ insertEntry e l ↔ y = e ∨ y ∈ l := by
  induction l with
  | nil => simp [insertEntry]
  | cons x xs ih =>
    unfold insertEntry
    split_ifs
    · rw [List.mem_cons, ih, List.mem_cons]
      tauto
    · simp only [List.mem_cons]

/-- Stable descending insertion preserves descending order. -/
theorem insertEntry_sorted (e : LeaderboardEntry) (l : List LeaderboardEntry)
    (h : l.Pairwise (fun a b => b.mass ≤ a.mass)) :
    (insertEntry e l).Pairwise (fun a b => b.mass ≤ a.mass) := by
  induction l with
  | nil => simp [insertEntry]
  | cons x xs ih =>
    rw [List.pairwise_cons] at h
    unfold insertEntry
    split_ifs with hx
    · rw [List.pairwise_cons]
      constructor
      · intro y hy
        rcases (mem_insertEntry e y xs).mp hy with rfl | hy
        · exact le_of_lt hx
        · exact h.1 y hy
      · exact ih h.2
    · rw [List.pairwise_cons]
      constructor
      · intro y hy
        rcases List.mem_cons.mp hy with rfl | hy
        · exact not_lt.mp hx
        · exact le_trans (h.1 y hy) (not_lt.mp hx)
      · exact List.pairwise_cons.mpr h

/-- The leaderboard sort produces descending order. -/
theorem sortDesc_sorted (l : List LeaderboardEntry) :
    (sortDesc l).Pairwise (fun a b => b.mass ≤ a.mass) := by
  induction l with
  | nil => simp [sortDesc]
  | cons x xs ih => exact insertEntry_sorted x _ ih

/-- Inserting commutes with filtering on a mass value: the inserted entry
lands in front of precisely the equal-mass entries it was inserted before. -/
theorem filter_insertEntry (e : LeaderboardEntry) (l : List LeaderboardEntry) (m : ℤ) :
    (insertEntry e l).filter (fun x => x.mass = m)
      = if e.mass = m then e :: l.filter (fun x => x.mass = m)
        else l.filter (fun x => x.mass = m) := by
  induction l with
  | nil =>
    by_cases he : e.mass = m <;> simp [insertEntry, he]
  | cons x xs ih =>
    by_cases he : e.mass = m
    · rw [if_pos he]
      unfold insertEntry
      by_cases hx : x.mass > e.mass
      · rw [if_pos hx, List.filter_cons]
        by_cases hxm : x.mass = m
        · exfalso
          rw [hxm, he] at hx
          exact lt_irrefl m hx
        · rw [ih, if_pos he]
          simp [hxm, List.filter_cons]
      · rw [if_neg hx]
        simp [he, List.filter_cons]
    · rw [if_neg he]
      unfold insertEntry
      by_cases hx : x.mass > e.mass
      · rw [if_pos hx, List.filter_cons, ih, if_neg he, List.filter_cons]
      · rw [if_neg hx]
        simp [he, List.filter_cons]

/-- The leaderboard sort is stable: for every mass value, the equal-mass
entries appear in their original (insertion) order. -/
theorem sortDesc_stable (l : List LeaderboardEntry) (m : ℤ) :
    (sortDesc l).filter (fun x => x.mass = m) = l.filter (fun x => x.mass = m) := by
  induction l with
  | nil => rfl
  | cons x xs ih =>
    show (insertEntry x (sortDesc xs)).filter _ = _
    rw [filter_insertEntry]
    by_cases hx : x.mass = m <;> simp [hx, ih, List.filter_cons]

/-- C8 counterexample: with live blobs A (raw summed mass 30.25, inserted
first) and B (raw summed mass 30.5), `pushState` floors both to 30 before
sorting, and the stable sort then publishes A before B — so the published
leaderboard is not sorted descending by the raw summed mass, which is
strictly larger for B. -/
theorem leaderboard_not_sorted_by_raw_sum :
    (leaderboardOf nmW [lbA, lbB]).map (fun e => e.playerId) = ["A", "B"] ∧
    playerMass "A" [lbA, lbB] < playerMass "B" [lbA, lbB] := by
  have hfa : (⌊(121 / 4 : ℚ)⌋ : ℤ) = 30 := by
    rw [Int.floor_eq_iff] <;> norm_num
  have hfb : (⌊(61 / 2 : ℚ)⌋ : ℤ) = 30 := by
    rw [Int.floor_eq_iff] <;> norm_num
  constructor
  · have hsum : sumMasses [lbA, lbB] = [("A", (121 / 4 : ℚ)), ("B", (61 / 2 : ℚ))] := by
      unfold sumMasses
      rw [List.foldl_cons, List.foldl_cons, List.foldl_nil]
      norm_num [lbA, lbB, mkBlob]
      decide
    unfold leaderboardOf entriesOf
    rw [hsum]
    simp only [List.map_cons, List.map_nil, hfa, hfb]
    norm_num [sortDesc, insertEntry, nmW]
  · simp [playerMass, lbA, lbB, mkBlob, List.filter_cons]
    norm_num

/-- C8 amended: the published leaderboard is sorted descending by the
published (floored) per-player mass, has at most 10 entries, and the sort
is stable: for every mass value the equal-mass entries keep their
first-occurrence (insertion) order. -/
theorem leaderboard_sorted_floored_stable (nameOf : String → String) (blobs : List Blob) :
    (leaderboardOf nameOf blobs).Pairwise (fun a b => b.mass ≤ a.mass) ∧
    (leaderboardOf nameOf blobs).length ≤ 10 ∧
    (∀ m : ℤ, (sortDesc (entriesOf nameOf blobs)).filter (fun e => e.mass = m)
        = (entriesOf nameOf blobs).filter (fun e => e.mass = m)) := by
  refine ⟨?_, ?_, fun m => sortDesc_stable _ m⟩
  · unfold leaderboardOf
    exact (sortDesc_sorted _).sublist (List.take_sublist _ _)
  · unfold leaderboardOf
    exact List.length_take_le _ _

/-- Witness for `leaderboard_sorted_floored_stable` at a concrete world. -/
theorem leaderboard_sorted_floored_stable_witness :
    (leaderboardOf nmW [mkBlob "h1" "A" 0 40 40 0]).Pairwise (fun a b => b.mass ≤ a.mass) ∧
    (leaderboardOf nmW [mkBlob "h1" "A" 0 40 40 0]).length ≤ 10 ∧
    (∀ m : ℤ, (sortDesc (entriesOf nmW [mkBlob "h1" "A" 0 40 40 0])).filter
        (fun e => e.mass = m)
        = (entriesOf nmW [mkBlob "h1" "A" 0 40 40 0]).filter (fun e => e.mass = m)) :=
  leaderboard_sorted_floored_stable nmW [mkBlob "h1" "A" 0 40 40 0]

/-- C7 counterexample: the scan's threshold tests observe radii already
updated by earlier pair resolutions in the same tick.  With same-owner
blobs of masses 100 (x = 0), 100 (x = 10) and 20 (x = 70), the first pair
merges into a mass-200 blob whose recomputed radius reaches x = 70, so the
second pair consumes blob b3 — although no pair involving b3 passes any
threshold test on the pre-scan snapshot. -/
theorem scan_observes_updated_radius :
    "b3" ∈ (runScan rApprox 1 [cxB1, cxB2, cxB3]).consumed ∧
    ¬ resolvable 1 cxB1 cxB3 ∧ ¬ resolvable 1 cxB2 cxB3 := by
  have h01 : pairStep rApprox 1 ⟨[cxB1, cxB2, cxB3], []⟩ (0, 1)
      = ⟨[cxB1m, cxB2, cxB3], ["b2"]⟩ := by
    rw [pairStep_some rfl rfl]
    rw [if_neg (by decide), if_pos (by decide),
      if_pos (by norm_num [cxB1, cxB2, mkBlob, distLt, dist2])]
    rfl
  have h02 : pairStep rApprox 1 ⟨[cxB1m, cxB2, cxB3], ["b2"]⟩ (0, 2)
      = ⟨[cxB1mm, cxB2, cxB3], ["b2", "b3"]⟩ := by
    rw [pairStep_some rfl rfl]
    rw [if_neg (by decide), if_pos (by decide),
      if_pos (by norm_num [cxB1m, cxB1, cxB2, cxB3, mkBlob, distLt, dist2, rApprox])]
    rfl
  have h12 : pairStep rApprox 1 ⟨[cxB1mm, cxB2, cxB3], ["b2", "b3"]⟩ (1, 2)
      = ⟨[cxB1mm, cxB2, cxB3], ["b2", "b3"]⟩ := by
    rw [pairStep_some rfl rfl, if_pos (by decide)]
  have hrun : runScan rApprox 1 [cxB1, cxB2, cxB3] = ⟨[cxB1mm, cxB2, cxB3], ["b2", "b3"]⟩ := by
    show ([(0, 1), (0, 2), (1, 2)] : List (Nat × Nat)).foldl (pairStep rApprox 1)
        ⟨[cxB1, cxB2, cxB3], []⟩ = _
    rw [List.foldl_cons, h01, List.foldl_cons, h02, List.foldl_cons, h12, List.foldl_nil]
  refine ⟨?_, ?_, ?_⟩
  · rw [hrun]
    decide
  · simp only [resolvable, cxB1, cxB3, mkBlob]
    rw [if_pos (by decide)]
    norm_num [distLt, dist2]
  · simp only [resolvable, cxB2, cxB3, mkBlob]
    rw [if_pos (by decide)]
    norm_num [distLt, dist2]

/-- C7 amended: every unordered pair is evaluated at most once per tick
(the pair list is duplicate-free and holds exactly the pairs i < j), and
positions — which the scan never writes — are taken from the pre-scan
snapshot for every threshold test; but mass and radius are read from the
in-place updated array, so a later pair can observe a radius grown by an
earlier resolution in the same tick (see the counterexample). -/
theorem pairs_once_positions_frozen (mtr : ℚ → ℚ) (now : ℚ) :
    (∀ n : Nat, (pairIndices n).Nodup) ∧
    (∀ n i j : Nat, ((i, j) ∈ pairIndices n ↔ i < j ∧ j < n)) ∧
    (∀ (blobs : List Blob) (k : Nat) (b : Blob), blobs[k]? = some b →
      ∃ b', (runScan mtr now blobs).blobs[k]? = some b' ∧ b'.pos = b.pos ∧
        b'.velocity = b.velocity ∧ b'.id = b.id ∧ b'.playerId = b.playerId ∧
        b'.canRecombineTime = b.canRecombineTime) := by
  refine ⟨pairIndices_nodup, fun n i j => mem_pairIndices, ?_⟩
  intro blobs k b h
  obtain ⟨m, r, hm⟩ := runScan_frame mtr now blobs k b h
  exact ⟨_, hm, rfl, rfl, rfl, rfl, rfl⟩

/-- Witness for `pairs_once_positions_frozen` at a concrete world. -/
theorem pairs_once_positions_frozen_witness :
    ∃ b', (runScan mtrId 0 [mkBlob "g1" "A" 0 40 40 0]).blobs[0]? = some b' ∧
      b'.pos = (mkBlob "g1" "A" 0 40 40 0).pos ∧
      b'.velocity = (mkBlob "g1" "A" 0 40 40 0).velocity ∧
      b'.id = (mkBlob "g1" "A" 0 40 40 0).id ∧
      b'.playerId = (mkBlob "g1" "A" 0 40 40 0).playerId ∧
      b'.canRecombineTime = (mkBlob "g1" "A" 0 40 40 0).canRecombineTime :=
  (pairs_once_positions_frozen mtrId 0).2.2 [mkBlob "g1" "A" 0 40 40 0] 0
    (mkBlob "g1" "A" 0 40 40 0) rfl

end Blobby
